import Mathlib

/-!
Verification of the proof-of-work library (src/lib.rs).

The library exposes three functions:
  * `leading_zeros : &[u8] -> u32` — counts the leading zero bits of a byte
    sequence;
  * `verify : (&[u8], [u8; NONCE_SIZE], u32) -> bool` — checks that the Blake3
    hash of `nonce ++ bytes` has at least `cost` leading zero bits;
  * `search : (&[u8], u32, u32) -> Result<[u8; NONCE_SIZE], Error>` — draws
    random nonces and tests them until one verifies or the meter is exhausted.

Bytes are modelled as `Nat` (the source type is `u8`, so values are below 256;
the embedding is faithful on that range), byte strings as `List Nat`, and the
`u32` parameters as `Nat`.  The Blake3 hasher and the random source are
external collaborators of the crate, so they enter the embedding as explicit
function parameters: `hash` maps the concatenated input bytes to the digest
bytes (the incremental `update` calls in the source hash the concatenation of
their arguments), and `rng` maps the attempt index to the outcome of
`nonce.try_fill` — either a fresh nonce or a `rand::Error`.
-/

namespace PoW

/-- NONCE_SIZE from the source: `pub const NONCE_SIZE: usize = 10usize;`. -/
def NONCE_SIZE : Nat := 10

/-- Model of `rand::Error`, the opaque error type of the entropy source. -/
structure RandError where
  code : Nat
deriving DecidableEq, Repr

/-- Model of the crate's `Error` enum: `Rand(rand::Error)` and
`MeterOverdrawn`. -/
inductive Error where
  | Rand : RandError → Error
  | MeterOverdrawn : Error
deriving DecidableEq, Repr

/-- Model of `u8::leading_zeros`: the number of leading zero bits in the 8-bit
representation of the byte.  Faithful for every `b < 256` (the `u8` range). -/
def u8LeadingZeros (b : Nat) : Nat :=
  if 128 ≤ b then 0
  else if 64 ≤ b then 1
  else if 32 ≤ b then 2
  else if 16 ≤ b then 3
  else if 8 ≤ b then 4
  else if 4 ≤ b then 5
  else if 2 ≤ b then 6
  else if 1 ≤ b then 7
  else 8

/-- Model of `leading_zeros` from the source: walk the byte sequence from the
front, adding each byte's `leading_zeros()` count, and stop as soon as a byte
contributes fewer than 8 (i.e. is non-zero). -/
def leading_zeros : List Nat → Nat
  | [] => 0
  | b :: rest =>
    let lz := u8LeadingZeros b
    if lz < 8 then lz else lz + leading_zeros rest

/-- Model of `verify`: hash `nonce ++ bytes` (the source feeds the nonce to the
hasher first, then the payload) and test `leading_zeros(hash) >= cost`. -/
def verify (hash : List Nat → List Nat) (bytes : List Nat) (nonce : List Nat)
    (cost : Nat) : Bool :=
  decide (cost ≤ leading_zeros (hash (nonce ++ bytes)))

/-- Model of one iteration of the `search` loop: `nonce.try_fill` either fails
(the `?` propagates the error as `Error::Rand`) or yields a nonce; the nonce is
hashed together with the payload and tested against `cost`; on failure the
loop continues with `onFail` (either the next iteration, or
`Error::MeterOverdrawn` when the incremented counter would exceed the meter). -/
def searchStep (hash : List Nat → List Nat) (bytes : List Nat) (cost : Nat)
    (draw : Except RandError (List Nat)) (onFail : Except Error (List Nat)) :
    Except Error (List Nat) :=
  match draw with
  | .error e => .error (.Rand e)
  | .ok nonce =>
    if cost ≤ leading_zeros (hash (nonce ++ bytes)) then .ok nonce
    else onFail

/-- Model of the loop of `search`.  `i` is the attempt index (used to query the
random source) and `fuel` is `meter - counter`, the number of failed attempts
the loop will still tolerate: the source increments `counter` after each failed
test and returns `Error::MeterOverdrawn` once `counter > meter`, which happens
exactly on a failed test with `fuel = 0`. -/
def searchGo (hash : List Nat → List Nat) (rng : Nat → Except RandError (List Nat))
    (bytes : List Nat) (cost : Nat) : Nat → Nat → Except Error (List Nat)
  | i, 0 => searchStep hash bytes cost (rng i) (.error .MeterOverdrawn)
  | i, fuel + 1 =>
    searchStep hash bytes cost (rng i) (searchGo hash rng bytes cost (i + 1) fuel)

/-- Model of `search`: run the loop starting at attempt 0 with `counter = 0`,
i.e. with `meter` further failed attempts allowed after the first one. -/
def search (hash : List Nat → List Nat) (rng : Nat → Except RandError (List Nat))
    (bytes : List Nat) (cost : Nat) (meter : Nat) : Except Error (List Nat) :=
  searchGo hash rng bytes cost 0 meter

/-! Helper lemmas about the leading-zero counter. -/

theorem u8LeadingZeros_le (b : Nat) : u8LeadingZeros b ≤ 8 := by
  unfold u8LeadingZeros
  split_ifs <;> omega

theorem u8LeadingZeros_lt_8 (b : Nat) (hb : b ≠ 0) : u8LeadingZeros b < 8 := by
  unfold u8LeadingZeros
  split_ifs <;> omega

theorem u8LeadingZeros_eq_8_iff (b : Nat) : u8LeadingZeros b = 8 ↔ b = 0 := by
  constructor
  · intro h
    by_contra hb
    have := u8LeadingZeros_lt_8 b hb
    omega
  · intro h
    subst h
    rfl

theorem u8LeadingZeros_zero : u8LeadingZeros 0 = 8 := rfl

theorem leading_zeros_nil : leading_zeros [] = 0 := rfl

theorem leading_zeros_cons_zero (rest : List Nat) :
    leading_zeros (0 :: rest) = 8 + leading_zeros rest := by
  simp [leading_zeros, u8LeadingZeros_zero]

theorem leading_zeros_cons_ne (b : Nat) (rest : List Nat) (hb : b ≠ 0) :
    leading_zeros (b :: rest) = u8LeadingZeros b := by
  have h := u8LeadingZeros_lt_8 b hb
  simp [leading_zeros, h]

theorem leading_zeros_replicate (n : Nat) :
    leading_zeros (List.replicate n 0) = 8 * n := by
  induction n with
  | zero => rfl
  | succ n ih =>
    rw [List.replicate_succ, leading_zeros_cons_zero, ih]
    ring

theorem leading_zeros_le_length (bytes : List Nat) :
    leading_zeros bytes ≤ 8 * bytes.length := by
  induction bytes with
  | nil => simp [leading_zeros_nil]
  | cons b rest ih =>
    by_cases hb : b = 0
    · subst hb
      rw [leading_zeros_cons_zero]
      simp only [List.length_cons]
      omega
    · rw [leading_zeros_cons_ne b rest hb]
      have h := u8LeadingZeros_lt_8 b hb
      simp only [List.length_cons]
      omega

theorem leading_zeros_eq_length_iff (bytes : List Nat) :
    leading_zeros bytes = 8 * bytes.length ↔ ∀ b ∈ bytes, b = 0 := by
  induction bytes with
  | nil => simp [leading_zeros_nil]
  | cons b rest ih =>
    by_cases hb : b = 0
    · subst hb
      rw [leading_zeros_cons_zero]
      simp only [List.length_cons, List.mem_cons]
      constructor
      · intro h
        have hrest : leading_zeros rest = 8 * rest.length := by omega
        intro x hx
        rcases hx with hx | hx
        · exact hx
        · exact (ih.mp hrest) x hx
      · intro h
        have hrest : ∀ x ∈ rest, x = 0 := fun x hx => h x (Or.inr hx)
        have := ih.mpr hrest
        omega
    · rw [leading_zeros_cons_ne b rest hb]
      have h := u8LeadingZeros_lt_8 b hb
      simp only [List.length_cons, List.mem_cons]
      constructor
      · intro heq
        exfalso
        omega
      · intro hall
        exact absurd (hall b (Or.inl rfl)) hb

/-! Helper lemmas about the search loop. -/

theorem searchStep_ok (hash : List Nat → List Nat) (bytes : List Nat)
    (cost : Nat) (draw : Except RandError (List Nat))
    (onFail : Except Error (List Nat)) (n : List Nat)
    (h : searchStep hash bytes cost draw onFail = Except.ok n) :
    (draw = Except.ok n ∧ cost ≤ leading_zeros (hash (n ++ bytes))) ∨
      onFail = Except.ok n := by
  cases draw with
  | error e => simp [searchStep] at h
  | ok nonce =>
    simp only [searchStep] at h
    split at h
    · rename_i hc
      injection h with h2
      subst h2
      exact Or.inl ⟨rfl, hc⟩
    · exact Or.inr h

theorem searchGo_rand (hash : List Nat → List Nat)
    (rng : Nat → Except RandError (List Nat)) (bytes : List Nat)
    (cost i fuel : Nat) (e : RandError) (h : rng i = Except.error e) :
    searchGo hash rng bytes cost i fuel = Except.error (Error.Rand e) := by
  cases fuel <;> simp [searchGo, searchStep, h]

theorem searchGo_ok_le (hash : List Nat → List Nat)
    (rng : Nat → Except RandError (List Nat)) (bytes : List Nat) (cost : Nat) :
    ∀ fuel i n, searchGo hash rng bytes cost i fuel = Except.ok n →
      cost ≤ leading_zeros (hash (n ++ bytes)) := by
  intro fuel
  induction fuel with
  | zero =>
    intro i n h
    rw [searchGo] at h
    rcases searchStep_ok hash bytes cost (rng i) _ n h with ⟨_, hc⟩ | hfail
    · exact hc
    · exact Except.noConfusion hfail
  | succ fuel ih =>
    intro i n h
    rw [searchGo] at h
    rcases searchStep_ok hash bytes cost (rng i) _ n h with ⟨_, hc⟩ | hfail
    · exact hc
    · exact ih (i + 1) n hfail

theorem searchGo_congr (hash : List Nat → List Nat)
    (rng1 rng2 : Nat → Except RandError (List Nat)) (bytes : List Nat)
    (cost : Nat) :
    ∀ fuel i, (∀ j, j ≤ fuel → rng1 (i + j) = rng2 (i + j)) →
      searchGo hash rng1 bytes cost i fuel = searchGo hash rng2 bytes cost i fuel := by
  intro fuel
  induction fuel with
  | zero =>
    intro i hagree
    have h0 := hagree 0 (Nat.le_refl 0)
    rw [Nat.add_zero] at h0
    simp [searchGo, h0]
  | succ fuel ih =>
    intro i hagree
    have h0 := hagree 0 (Nat.zero_le _)
    rw [Nat.add_zero] at h0
    have hrest : ∀ j, j ≤ fuel → rng1 (i + 1 + j) = rng2 (i + 1 + j) := by
      intro j hj
      have hx := hagree (j + 1) (by omega)
      rwa [show i + (j + 1) = i + 1 + j from by omega] at hx
    simp only [searchGo, h0, ih (i + 1) hrest]

theorem searchGo_all_fail (hash : List Nat → List Nat)
    (rng : Nat → Except RandError (List Nat)) (bytes : List Nat) (cost : Nat) :
    ∀ fuel i,
      (∀ j, j ≤ fuel → ∃ n, rng (i + j) = Except.ok n ∧
        leading_zeros (hash (n ++ bytes)) < cost) →
      searchGo hash rng bytes cost i fuel = Except.error Error.MeterOverdrawn := by
  intro fuel
  induction fuel with
  | zero =>
    intro i hfail
    obtain ⟨n, hok, hlt⟩ := hfail 0 (Nat.le_refl 0)
    rw [Nat.add_zero] at hok
    simp [searchGo, searchStep, hok, Nat.not_le.mpr hlt]
  | succ fuel ih =>
    intro i hfail
    obtain ⟨n, hok, hlt⟩ := hfail 0 (Nat.zero_le _)
    rw [Nat.add_zero] at hok
    have hrest : ∀ j, j ≤ fuel → ∃ n, rng (i + 1 + j) = Except.ok n ∧
        leading_zeros (hash (n ++ bytes)) < cost := by
      intro j hj
      obtain ⟨m, hok2, hlt2⟩ := hfail (j + 1) (by omega)
      rw [show i + (j + 1) = i + 1 + j from by omega] at hok2
      exact ⟨m, hok2, hlt2⟩
    rw [searchGo, hok]
    simp only [searchStep]
    rw [if_neg (Nat.not_le.mpr hlt)]
    exact ih (i + 1) hrest

theorem searchGo_overdrawn (hash : List Nat → List Nat)
    (rng : Nat → Except RandError (List Nat)) (bytes : List Nat) (cost : Nat) :
    ∀ fuel i,
      searchGo hash rng bytes cost i fuel = Except.error Error.MeterOverdrawn →
      ∀ j, j ≤ fuel → ∃ n, rng (i + j) = Except.ok n ∧
        leading_zeros (hash (n ++ bytes)) < cost := by
  intro fuel
  induction fuel with
  | zero =>
    intro i h j hj
    have hj0 : j = 0 := Nat.le_zero.mp hj
    subst hj0
    rw [Nat.add_zero]
    cases hr : rng i with
    | error e =>
      rw [searchGo_rand hash rng bytes cost i 0 e hr] at h
      exact absurd h (by simp)
    | ok n =>
      rw [searchGo, hr] at h
      simp only [searchStep] at h
      split at h
      · exact Except.noConfusion h
      · rename_i hneg
        exact ⟨n, rfl, Nat.not_le.mp hneg⟩
  | succ fuel ih =>
    intro i h j hj
    cases hr : rng i with
    | error e =>
      rw [searchGo_rand hash rng bytes cost i (fuel + 1) e hr] at h
      exact absurd h (by simp)
    | ok n =>
      rw [searchGo, hr] at h
      simp only [searchStep] at h
      split at h
      · exact Except.noConfusion h
      · rename_i hneg
        cases j with
        | zero => exact ⟨n, by rw [Nat.add_zero]; exact hr, Nat.not_le.mp hneg⟩
        | succ j =>
          obtain ⟨m, hm, hlt⟩ := ih (i + 1) h j (by omega)
          rw [show i + 1 + j = i + (j + 1) from by omega] at hm
          exact ⟨m, hm, hlt⟩

/-! Concrete instances used to exercise the theorems below. -/

/-- Identity digest function, a concrete stand-in for the hash collaborator. -/
def hashId : List Nat → List Nat := fun x => x

/-- Digest function returning a 32-byte all-zero digest, matching the Blake3
output length. -/
def hash32 : List Nat → List Nat := fun _ => List.replicate 32 0

/-- Random source that always yields the all-zero nonce. -/
def rngZero : Nat → Except RandError (List Nat) :=
  fun _ => Except.ok (List.replicate NONCE_SIZE 0)

/-- Random source that yields the all-zero nonce on the first draw and the
all-255 nonce afterwards. -/
def rngZeroThenFF : Nat → Except RandError (List Nat) :=
  fun i => if i = 0 then Except.ok (List.replicate NONCE_SIZE 0)
    else Except.ok (List.replicate NONCE_SIZE 255)

/-- Random source that always yields the all-255 nonce. -/
def rngFF : Nat → Except RandError (List Nat) :=
  fun _ => Except.ok (List.replicate NONCE_SIZE 255)

/-- Random source that always fails. -/
def rngBroken : Nat → Except RandError (List Nat) :=
  fun _ => Except.error ⟨7⟩

/-! Claim theorems. -/

/-- C1: for every payload, nonce, and cost, `verify` returns true iff the
leading-zero-bit count of the digest of the nonce bytes followed by the
payload bytes is at least `cost`; the hash input framing is nonce first,
payload second. -/
theorem verify_true_iff (hash : List Nat → List Nat) (bytes nonce : List Nat)
    (cost : Nat) :
    verify hash bytes nonce cost = true ↔
      cost ≤ leading_zeros (hash (nonce ++ bytes)) := by
  simp [verify]

/-- C2: whenever `search` returns a nonce rather than an error, that nonce
satisfies `verify`; `search` never returns an invalid nonce. -/
theorem search_ok_verify (hash : List Nat → List Nat)
    (rng : Nat → Except RandError (List Nat)) (bytes : List Nat)
    (cost meter : Nat) (nonce : List Nat)
    (h : search hash rng bytes cost meter = Except.ok nonce) :
    verify hash bytes nonce cost = true := by
  simp only [verify, decide_eq_true_eq]
  exact searchGo_ok_le hash rng bytes cost meter 0 nonce h

theorem search_ok_verify_witness :
    verify hashId [] (List.replicate NONCE_SIZE 0) 1 = true :=
  search_ok_verify hashId rngZero [] 1 0 (List.replicate NONCE_SIZE 0) rfl

/-- C3: `leading_zeros` returns 0 on the empty sequence, `8 * N` on `N` zero
bytes, and, when the first byte is non-zero, exactly that byte's own
leading-zero-bit count (at most 7), regardless of the bytes that follow. -/
theorem leading_zeros_cases (n b : Nat) (rest : List Nat) :
    leading_zeros [] = 0 ∧
    leading_zeros (List.replicate n 0) = 8 * n ∧
    (b ≠ 0 → leading_zeros (b :: rest) = u8LeadingZeros b ∧
      u8LeadingZeros b ≤ 7) := by
  refine ⟨leading_zeros_nil, leading_zeros_replicate n, ?_⟩
  intro hb
  have h := u8LeadingZeros_lt_8 b hb
  exact ⟨leading_zeros_cons_ne b rest hb, by omega⟩

theorem leading_zeros_cases_witness :
    leading_zeros [3, 255] = u8LeadingZeros 3 ∧ u8LeadingZeros 3 ≤ 7 :=
  (leading_zeros_cases 2 3 [255]).2.2 (by decide)

/-- C4 counterexample: with `meter = 0` the loop still draws and tests one
nonce — it can even succeed — so `search` performs more than `meter`
attempts, contradicting the claim that at most `meter` nonces are tested. -/
theorem search_meter_zero_counterexample :
    search hashId rngZero [] 1 0 = Except.ok (List.replicate NONCE_SIZE 0) ∧
      search hashId rngFF [] 1 0 = Except.error Error.MeterOverdrawn := by
  constructor <;> rfl

/-- C4 (amended): the meter caps the attempts at `meter + 1`: the result of
`search` depends only on the first `meter + 1` random draws, and when all of
those draws yield nonces failing the cost test, `search` fails with
`MeterOverdrawn`. -/
theorem search_meter_cap :
    (∀ (hash : List Nat → List Nat)
        (rng1 rng2 : Nat → Except RandError (List Nat))
        (bytes : List Nat) (cost meter : Nat),
      (∀ i, i ≤ meter → rng1 i = rng2 i) →
      search hash rng1 bytes cost meter = search hash rng2 bytes cost meter) ∧
    (∀ (hash : List Nat → List Nat) (rng : Nat → Except RandError (List Nat))
        (bytes : List Nat) (cost meter : Nat),
      (∀ i, i ≤ meter → ∃ n, rng i = Except.ok n ∧
        leading_zeros (hash (n ++ bytes)) < cost) →
      search hash rng bytes cost meter = Except.error Error.MeterOverdrawn) := by
  constructor
  · intro hash rng1 rng2 bytes cost meter hagree
    refine searchGo_congr hash rng1 rng2 bytes cost meter 0 ?_
    intro j hj
    have hx := hagree j hj
    rwa [Nat.zero_add]
  · intro hash rng bytes cost meter hfail
    refine searchGo_all_fail hash rng bytes cost meter 0 ?_
    intro j hj
    have hx := hfail j hj
    rwa [Nat.zero_add]

theorem search_meter_cap_witness :
    search hashId rngZero [] 1 0 = search hashId rngZeroThenFF [] 1 0 :=
  search_meter_cap.1 hashId rngZero rngZeroThenFF [] 1 0 (fun i hi => by
    have hi0 : i = 0 := Nat.le_zero.mp hi
    subst hi0
    rfl)

/-- C5: `verify` is monotonic in cost: if it holds at cost `C`, it holds at
every cost `c ≤ C`. -/
theorem verify_mono (hash : List Nat → List Nat) (bytes nonce : List Nat)
    (c C : Nat) (hle : c ≤ C) (h : verify hash bytes nonce C = true) :
    verify hash bytes nonce c = true := by
  simp only [verify, decide_eq_true_eq] at h ⊢
  omega

theorem verify_mono_witness :
    verify hashId [] (List.replicate NONCE_SIZE 0) 2 = true :=
  verify_mono hashId [] (List.replicate NONCE_SIZE 0) 2 8 (by decide) (by decide)

/-- C6: when `cost` exceeds the digest bit length (`8 * 32 = 256` for the
32-byte Blake3 digest), `search` can never succeed: it never returns a nonce,
and when the random source never fails it returns `MeterOverdrawn` — there is
no separate impossible-difficulty error. -/
theorem search_impossible_cost (hash : List Nat → List Nat)
    (rng : Nat → Except RandError (List Nat)) (bytes : List Nat)
    (cost meter : Nat) (hlen : ∀ x, (hash x).length = 32) (hc : 256 < cost) :
    (∀ n, search hash rng bytes cost meter ≠ Except.ok n) ∧
      ((∀ i, ∃ m, rng i = Except.ok m) →
        search hash rng bytes cost meter = Except.error Error.MeterOverdrawn) := by
  have hlz : ∀ n : List Nat, leading_zeros (hash (n ++ bytes)) < cost := by
    intro n
    have h1 := leading_zeros_le_length (hash (n ++ bytes))
    rw [hlen] at h1
    omega
  constructor
  · intro n h
    have h2 := searchGo_ok_le hash rng bytes cost meter 0 n h
    exact absurd h2 (Nat.not_le.mpr (hlz n))
  · intro hok
    refine searchGo_all_fail hash rng bytes cost meter 0 ?_
    intro j hj
    obtain ⟨m, hm⟩ := hok (0 + j)
    exact ⟨m, hm, hlz m⟩

theorem search_impossible_cost_witness :
    search hash32 rngZero [] 257 0 = Except.error Error.MeterOverdrawn :=
  (search_impossible_cost hash32 rngZero [] 257 0 (fun _ => by simp [hash32])
    (by decide)).2 (fun i => ⟨List.replicate NONCE_SIZE 0, rfl⟩)

/-- C7: `verify` is deterministic and pure: two calls with identical payload,
nonce, and cost (under the same deterministic hash collaborator) yield the
identical boolean result. -/
theorem verify_deterministic (hash : List Nat → List Nat)
    (bytes1 bytes2 nonce1 nonce2 : List Nat) (cost1 cost2 : Nat)
    (hb : bytes1 = bytes2) (hn : nonce1 = nonce2) (hc : cost1 = cost2) :
    verify hash bytes1 nonce1 cost1 = verify hash bytes2 nonce2 cost2 := by
  subst hb
  subst hn
  subst hc
  rfl

theorem verify_deterministic_witness :
    verify hashId [1, 2] (List.replicate NONCE_SIZE 0) 4 =
      verify hashId [1, 2] (List.replicate NONCE_SIZE 0) 4 :=
  verify_deterministic hashId [1, 2] [1, 2] (List.replicate NONCE_SIZE 0)
    (List.replicate NONCE_SIZE 0) 4 4 rfl rfl rfl

/-- C8: `search` has exactly two error kinds — a random-source failure
wrapping the entropy source's error and a budget-exhausted failure — as
distinct, distinguishable variants; a failing draw is surfaced directly to
the caller with no internal retry. -/
theorem error_kinds :
    (∀ e : Error, (∃ r, e = Error.Rand r) ∨ e = Error.MeterOverdrawn) ∧
    (∀ r : RandError, Error.Rand r ≠ Error.MeterOverdrawn) ∧
    (∀ (hash : List Nat → List Nat) (rng : Nat → Except RandError (List Nat))
        (bytes : List Nat) (cost meter : Nat) (e : RandError),
      rng 0 = Except.error e →
      search hash rng bytes cost meter = Except.error (Error.Rand e)) := by
  refine ⟨?_, ?_, ?_⟩
  · intro e
    cases e with
    | Rand r => exact Or.inl ⟨r, rfl⟩
    | MeterOverdrawn => exact Or.inr rfl
  · intro r h
    exact Error.noConfusion h
  · intro hash rng bytes cost meter e h
    exact searchGo_rand hash rng bytes cost 0 meter e h

theorem error_kinds_witness :
    search hashId rngBroken [] 1 5 = Except.error (Error.Rand ⟨7⟩) :=
  error_kinds.2.2 hashId rngBroken [] 1 5 ⟨7⟩ rfl

/-- C9: `leading_zeros` is bounded by 8 times the length of its input (hence
by 256 on a 32-byte digest), with equality exactly when every byte is zero. -/
theorem leading_zeros_bound (bytes : List Nat) :
    leading_zeros bytes ≤ 8 * bytes.length ∧
      (leading_zeros bytes = 8 * bytes.length ↔ ∀ b ∈ bytes, b = 0) :=
  ⟨leading_zeros_le_length bytes, leading_zeros_eq_length_iff bytes⟩

/-- C10: `search` always performs at least one attempt before checking the
budget: with `meter = 0` it draws and tests one nonce and can succeed, and a
`MeterOverdrawn` failure means that all `meter + 1` draws were tested and
failed the cost test. -/
theorem search_first_attempt :
    (∀ (hash : List Nat → List Nat) (rng : Nat → Except RandError (List Nat))
        (bytes n : List Nat) (cost : Nat),
      rng 0 = Except.ok n → cost ≤ leading_zeros (hash (n ++ bytes)) →
      search hash rng bytes cost 0 = Except.ok n) ∧
    (∀ (hash : List Nat → List Nat) (rng : Nat → Except RandError (List Nat))
        (bytes : List Nat) (cost meter : Nat),
      search hash rng bytes cost meter = Except.error Error.MeterOverdrawn →
      ∀ i, i ≤ meter → ∃ n, rng i = Except.ok n ∧
        leading_zeros (hash (n ++ bytes)) < cost) := by
  constructor
  · intro hash rng bytes n cost h0 hc
    show searchGo hash rng bytes cost 0 0 = Except.ok n
    rw [searchGo, h0]
    simp only [searchStep]
    rw [if_pos hc]
  · intro hash rng bytes cost meter h i hi
    have hx := searchGo_overdrawn hash rng bytes cost meter 0 h i hi
    rwa [Nat.zero_add] at hx

theorem search_first_attempt_witness :
    search hashId rngZero [] 3 0 = Except.ok (List.replicate NONCE_SIZE 0) :=
  search_first_attempt.1 hashId rngZero [] (List.replicate NONCE_SIZE 0) 3 rfl
    (by decide)

end PoW
